import Mathlib

/-!
Verification development for the ralphex orchestration engine.

Lines of child-process output are modelled as `List Char` (the executors
operate on text; we embed ASCII-faithful versions of the Go string
primitives they use).  Each definition is a direct translation of the
corresponding Go function, named after it where Lean allows.
-/

/-- Convert a string literal to the `List Char` representation used throughout. -/
def str (s : String) : List Char := s.toList

/-! ## Line reader (pkg/executor, linereader)

`readLines` in the source reads with `bufio.Reader.ReadString('\n')` (no
length limit) and trims each chunk with `trimLineEnding`.
`CodexExecutor.processStream` instead uses `bufio.NewScanner` with the
default `ScanLines` split function, which drops a `\r` before the `\n`
(`dropCR`) and rejects any line that does not fit in the default
64 KiB buffer (`bufio.MaxScanTokenSize`). -/

/-- `trimLineEnding` from the source: drop one trailing `\n`, then one
trailing `\r`; embedded `\r` characters are untouched. -/
def trimLineEnding (l : List Char) : List Char :=
  let l1 := if l.getLast? = some '\n' then l.dropLast else l
  if l1.getLast? = some '\r' then l1.dropLast else l1

/-- `dropCR` from Go's `bufio.ScanLines`: drop one trailing `\r` from a
token (the token itself never contains the terminating `\n`). -/
def dropCR (l : List Char) : List Char :=
  if l.getLast? = some '\r' then l.dropLast else l

/-- Split off the first chunk of a stream: everything up to and including
the first `\n`, as delivered by `bufio.Reader.ReadString('\n')`; the
second component is the rest of the stream. -/
def breakLine : List Char → List Char × List Char
  | [] => ([], [])
  | c :: rest =>
    if c = '\n' then ([c], rest)
    else
      let p := breakLine rest
      (c :: p.1, p.2)

theorem breakLine_snd_length_le : ∀ s : List Char, (breakLine s).2.length ≤ s.length := by
  intro s
  induction s with
  | nil => simp [breakLine]
  | cons c rest ih =>
    by_cases h : c = '\n'
    · simp [breakLine, h]
    · simp [breakLine, h]
      omega

/-- Worker for `chunksOf`.  Every step consumes at least one character of
the stream, so `s.length` steps of fuel always suffice; the fuel-zero
case is only reachable on the empty stream. -/
def chunksOfAux : Nat → List Char → List (List Char)
  | 0, _ => []
  | fuel + 1, s =>
    match s with
    | [] => []
    | c :: rest =>
      (breakLine (c :: rest)).1 :: chunksOfAux fuel (breakLine (c :: rest)).2

/-- The sequence of raw chunks a line reader sees: each chunk ends with
`\n` except possibly the last. -/
def chunksOf (s : List Char) : List (List Char) := chunksOfAux s.length s

theorem chunksOfAux_nil (f : Nat) : chunksOfAux f [] = [] := by
  cases f <;> simp [chunksOfAux]

theorem chunksOfAux_single (f : Nat) (s : List Char) (hne : s ≠ [])
    (h1 : (breakLine s).1 = s) (h2 : (breakLine s).2 = []) :
    chunksOfAux (f + 1) s = [s] := by
  cases s with
  | nil => exact absurd rfl hne
  | cons a rest => simp [chunksOfAux, h1, h2, chunksOfAux_nil]

/-- `readLines` from the source, as the list of lines handed to the
handler: every nonempty `ReadString` chunk is trimmed with
`trimLineEnding` (the final chunk produced by `chunksOf` is never empty,
matching the `line != ""` guard). -/
def readLinesModel (s : List Char) : List (List Char) :=
  (chunksOf s).map trimLineEnding

/-- `bufio.MaxScanTokenSize`: the default maximum token size of
`bufio.Scanner`, used by `CodexExecutor.processStream`. -/
def maxScanTokenSize : Nat := 65536

/-- Tokens produced by a `bufio.Scanner` with the `ScanLines` split
function over the given chunks: for a newline-terminated chunk the token
is the chunk without its `\n` (with `dropCR` applied); the scan fails
with `ErrTooLong` when the newline does not appear within the first
`maxScanTokenSize` buffered bytes (for the final, unterminated chunk:
when the chunk itself exceeds the buffer).  Returns the successfully
scanned tokens and whether the scan ended in `ErrTooLong`. -/
def scanChunks : List (List Char) → List (List Char) × Bool
  | [] => ([], false)
  | ch :: rest =>
    if ch.getLast? = some '\n' then
      if maxScanTokenSize ≤ ch.length - 1 then ([], true)
      else
        let p := scanChunks rest
        (dropCR ch.dropLast :: p.1, p.2)
    else
      if maxScanTokenSize < ch.length then ([], true) else ([dropCR ch], false)

/-- The token stream `CodexExecutor.processStream` consumes:
`bufio.Scanner` with `ScanLines` over the raw stream. -/
def scanTokens (s : List Char) : List (List Char) × Bool :=
  scanChunks (chunksOf s)

theorem breakLine_append_newline (c : List Char) (h : '\n' ∉ c) :
    breakLine (c ++ ['\n']) = (c ++ ['\n'], []) := by
  induction c with
  | nil => simp [breakLine]
  | cons a rest ih =>
    have ha : a ≠ '\n' := by intro hh; exact h (hh ▸ List.mem_cons_self a rest)
    have hrest : '\n' ∉ rest := fun hm => h (List.mem_cons_of_mem a hm)
    simp [breakLine, ha, ih hrest]

theorem breakLine_no_newline (c : List Char) (h : '\n' ∉ c) :
    breakLine c = (c, []) := by
  induction c with
  | nil => simp [breakLine]
  | cons a rest ih =>
    have ha : a ≠ '\n' := by intro hh; exact h (hh ▸ List.mem_cons_self a rest)
    have hrest : '\n' ∉ rest := fun hm => h (List.mem_cons_of_mem a hm)
    simp [breakLine, ha, ih hrest]

theorem chunksOf_single_terminated (c : List Char) (h : '\n' ∉ c) :
    chunksOf (c ++ ['\n']) = [c ++ ['\n']] := by
  unfold chunksOf
  have hlen : (c ++ ['\n']).length = c.length + 1 := by simp
  rw [hlen]
  have hb := breakLine_append_newline c h
  exact chunksOfAux_single c.length (c ++ ['\n']) (by simp)
    (by rw [hb]) (by rw [hb])

theorem chunksOf_single_unterminated (c : List Char) (h : '\n' ∉ c) (hne : c ≠ []) :
    chunksOf c = [c] := by
  unfold chunksOf
  have hb := breakLine_no_newline c h
  cases hl : c.length with
  | zero =>
    exact absurd (List.length_eq_zero.mp hl) hne
  | succ n =>
    exact chunksOfAux_single n c hne (by rw [hb]) (by rw [hb])

theorem trimLineEnding_append_newline (c : List Char) :
    trimLineEnding (c ++ ['\n']) = dropCR c := by
  simp [trimLineEnding, dropCR, List.getLast?_concat, List.dropLast_concat]

theorem mem_of_getLast_eq_some {α : Type} :
    ∀ (l : List α) (a : α), l.getLast? = some a → a ∈ l := by
  intro l
  induction l with
  | nil =>
    intro a h
    simp at h
  | cons b t ih =>
    intro a h
    cases t with
    | nil =>
      simp at h
      simp [h]
    | cons c u =>
      rw [List.getLast?_cons_cons] at h
      exact List.mem_cons_of_mem b (ih a h)

theorem trimLineEnding_no_newline (c : List Char) (h : '\n' ∉ c) :
    trimLineEnding c = dropCR c := by
  unfold trimLineEnding dropCR
  have hne : c.getLast? ≠ some '\n' := by
    intro hl
    exact h (mem_of_getLast_eq_some c '\n' hl)
  simp [hne]

theorem dropCR_of_getLast_ne (c : List Char) (h : c.getLast? ≠ some '\r') :
    dropCR c = c := by
  simp [dropCR, h]

/-! ## String primitives used by the codex output filter

ASCII-faithful models of the Go `strings` functions the filter calls.
(Go's `strings.ToUpper` and `strings.TrimSpace` also handle non-ASCII
runes; the filter only tests against ASCII markers, so the ASCII model
is used here.) -/

/-- ASCII whitespace, as recognised by `strings.TrimSpace` on ASCII text. -/
def isWsp (c : Char) : Bool :=
  c = ' ' || c = '\t' || c = '\n' || c = '\r' || c = Char.ofNat 11 || c = Char.ofNat 12

/-- `strings.TrimSpace`: drop leading and trailing whitespace. -/
def trimSpace (s : List Char) : List Char :=
  ((s.dropWhile isWsp).reverse.dropWhile isWsp).reverse

/-- `strings.HasPrefix s p`: `s` starts with `p`. -/
def startsWithL : List Char → List Char → Bool
  | _, [] => true
  | [], _ :: _ => false
  | c :: s, p :: ps => c = p && startsWithL s ps

/-- `strings.Contains s p`: `p` occurs as a contiguous substring of `s`. -/
def containsSubstr : List Char → List Char → Bool
  | s, p =>
    match s with
    | [] => startsWithL [] p
    | _ :: rest => startsWithL s p || containsSubstr rest p

/-- `strings.Index s p`: position of the first occurrence of `p` in `s`. -/
def findSub : List Char → List Char → Option Nat
  | s, p =>
    match s with
    | [] => if startsWithL [] p then some 0 else none
    | _ :: rest =>
      if startsWithL s p then some 0
      else (findSub rest p).map (· + 1)

/-- `strings.ToUpper` on ASCII text. -/
def toUpperL (s : List Char) : List Char := s.map Char.toUpper

/-- One step of `CodexExecutor.stripBold`'s loop: locate the first
`**`, the next `**` after it, and splice out both markers. -/
def stripBoldAux : Nat → List Char → List Char
  | 0, s => s
  | Nat.succ fuel, s =>
    match findSub s (str "**") with
    | none => s
    | some i =>
      match findSub (s.drop (i + 2)) (str "**") with
      | none => s
      | some j =>
        stripBoldAux fuel
          (s.take i ++ (s.drop (i + 2)).take j ++ (s.drop (i + 2)).drop (j + 2))

/-- `CodexExecutor.stripBold`: repeatedly remove `**text**` marker pairs.
Each iteration of the Go loop removes four characters, so `s.length`
steps of fuel always suffice to reach the loop's fixed point. -/
def stripBold (s : List Char) : List Char := stripBoldAux s.length s

/-- Character class `[a-zA-Z0-9]` (Go regexp, ASCII). -/
def isAlnumA (c : Char) : Bool := c.isAlpha || c.isDigit

/-- Character class of `fileLineRefPattern` names: alphanumeric,
underscore, dot, slash, or dash. -/
def isRefNameChar (c : Char) : Bool :=
  isAlnumA c || c = '_' || c = '.' || c = '/' || c = '-'

/-- Character class `[a-zA-Z0-9_]` (final character of the captured name). -/
def isRefEndChar (c : Char) : Bool := isAlnumA c || c = '_'

/-- The boundary class `[^a-zA-Z0-9/]` preceding a match of
`fileLineRefPattern` (when the match does not start the line). -/
def isRefBoundary (c : Char) : Bool := !(isAlnumA c || c = '/')

/-- `fileLineRefPattern.MatchString`: some position `i` starts a name of
`n + 2` characters (one or more name characters, the last of which is in
`[a-zA-Z0-9_]`) followed by
`:` and a digit, with `i` either at the start of the line or preceded by
a boundary character. -/
def fileLineRefMatch (s : List Char) : Bool :=
  (List.range s.length).any fun i =>
    (decide (i = 0) || isRefBoundary (s.getD (i - 1) ' ')) &&
    (List.range s.length).any fun n =>
      ((List.range (n + 1)).all fun j => isRefNameChar (s.getD (i + j) ' ')) &&
      isRefEndChar (s.getD (i + n + 1) ' ') &&
      decide (i + n + 2 < s.length) && decide (s.getD (i + n + 2) ' ' = ':') &&
      decide (i + n + 3 < s.length) && (s.getD (i + n + 3) ' ').isDigit

/-- Length (0 = no match) of a match of `urlPattern` = `https?://\S+`
anchored at the head of `s`: the scheme, `://`, and a maximal nonempty
run of non-whitespace characters. -/
def urlMatchLen (s : List Char) : Nat :=
  if startsWithL s (str "https://") then
    let k := ((s.drop 8).takeWhile fun c => !isWsp c).length
    if k > 0 then 8 + k else 0
  else if startsWithL s (str "http://") then
    let k := ((s.drop 7).takeWhile fun c => !isWsp c).length
    if k > 0 then 7 + k else 0
  else 0

/-- Worker for `urlReplace`.  Every step consumes at least one character,
so `s.length` steps of fuel always suffice; the fuel-zero case is only
reachable on the empty string. -/
def urlReplaceAux : Nat → List Char → List Char
  | 0, s => s
  | fuel + 1, s =>
    match s with
    | [] => []
    | c :: rest =>
      if urlMatchLen (c :: rest) > 0 then
        ' ' :: urlReplaceAux fuel ((c :: rest).drop (urlMatchLen (c :: rest)))
      else
        c :: urlReplaceAux fuel rest

/-- `urlPattern.ReplaceAllString s " "`: replace each leftmost,
non-overlapping match of `https?://\S+` by a single space. -/
def urlReplace (s : List Char) : List Char := urlReplaceAux s.length s

/-- `containsFileLineRef` from the source: strip URLs first (guarded by a
quick `"://"` check), then match `fileLineRefPattern`. -/
def containsFileLineRef (s : List Char) : Bool :=
  if containsSubstr s (str "://") then fileLineRefMatch (urlReplace s)
  else fileLineRefMatch s

/-! ## CodexExecutor output filter (pkg/executor/codex.go) -/

/-- `codexFilterState` from the source. `seenBold` (a Go map used as a
set) is modelled as the list of its keys. -/
structure CodexFilterState where
  inHeader : Bool
  inReview : Bool
  seenBold : List (List Char)
  lineCount : Nat
deriving Repr, DecidableEq

/-- The state `processStream` starts from. -/
def initFilterState : CodexFilterState :=
  { inHeader := true, inReview := false, seenBold := [], lineCount := 0 }

/-- `codexHeaderPrefixes` from the source: line starts shown during the
header phase. -/
def codexHeaderMarkers : List (List Char) :=
  [str "OpenAI Codex", str "workdir:", str "model:", str "provider:",
   str "approval:", str "sandbox:", str "reasoning effort:",
   str "reasoning summaries:", str "session id:", str "project_doc:",
   str "--------"]

/-- The header-prefix loop of `shouldDisplay`: does the trimmed line
start with one of the known header markers? -/
def isHeaderMarkerLine (s : List Char) : Bool :=
  codexHeaderMarkers.any fun p => startsWithL s p

/-- Which branch of `shouldDisplay` produced the result (recorded purely
for specification purposes; each constructor corresponds to one `return`
in the Go function). -/
inductive FilterRule
  | emptyLine | reviewMarker | reviewContent | noIssues
  | boldNew | boldDup | priority | fileRef
  | headerShown | headerHidden | filtered
deriving Repr, DecidableEq

/-- Result of `shouldDisplay`: the `(bool, string)` pair returned by the
Go method, the mutated `*codexFilterState`, and the branch taken. -/
structure DisplayResult where
  shown : Bool
  text : List Char
  state : CodexFilterState
  rule : FilterRule
deriving Repr, DecidableEq

/-- `CodexExecutor.shouldDisplay` from the source, branch for branch. -/
def shouldDisplay (line : List Char) (st0 : CodexFilterState) : DisplayResult :=
  let s := trimSpace line
  if s = [] then ⟨false, [], st0, .emptyLine⟩
  else
    let st := { st0 with lineCount := st0.lineCount + 1 }
    if containsSubstr s (str "Full review comments:") then
      ⟨true, line, { st with inReview := true, inHeader := false }, .reviewMarker⟩
    else if st.inReview then
      ⟨true, stripBold line, st, .reviewContent⟩
    else
      let upper := toUpperL s
      if containsSubstr upper (str "NO ISSUES FOUND") ||
         containsSubstr upper (str "NO ISSUES") then
        ⟨true, line, { st with inHeader := false }, .noIssues⟩
      else if startsWithL s (str "**") then
        let st := { st with inHeader := false }
        let cleaned := stripBold s
        if cleaned ∈ st.seenBold then ⟨false, [], st, .boldDup⟩
        else ⟨true, cleaned, { st with seenBold := cleaned :: st.seenBold }, .boldNew⟩
      else if startsWithL s (str "- [P") then
        ⟨true, stripBold line, { st with inHeader := false }, .priority⟩
      else if containsFileLineRef s then
        ⟨true, stripBold line, { st with inHeader := false }, .fileRef⟩
      else if st.inHeader && st.lineCount ≤ 20 then
        if isHeaderMarkerLine s then
          ⟨true, line, st, .headerShown⟩
        else ⟨false, [], st, .headerHidden⟩
      else
        let st := if st.inHeader && st.lineCount > 20 then { st with inHeader := false } else st
        ⟨false, [], st, .filtered⟩

/-- The filtered output `processStream` accumulates over a token list:
the `text` of every token `shouldDisplay` approves, threading the filter
state. -/
def filterRun (st : CodexFilterState) : List (List Char) → List (List Char)
  | [] => []
  | t :: ts =>
    let r := shouldDisplay t st
    (if r.shown then [r.text] else []) ++ filterRun r.state ts

/-- Error cause of `processStream`: context cancellation observed in the
per-line `select`, or a scanner read error (`ErrTooLong` in this model). -/
inductive StreamErrKind | ctxCanceled | readFail
deriving Repr, DecidableEq

/-- Return value of `CodexExecutor.processStream`. -/
structure StreamRes where
  filtered : List (List Char)
  raw : List (List Char)
  errS : Option StreamErrKind
deriving Repr, DecidableEq

/-- `CodexExecutor.processStream`: scan the stream with `bufio.Scanner`,
check the cancellation token before handling each scanned line, filter
through `shouldDisplay`, and return the accumulated filtered and raw
output together with the stream error.  `cancelAt = some t` means the
context is cancelled just before the select preceding line `t` (0-based);
`none` means the context is never cancelled. -/
def processStream (input : List Char) (cancelAt : Option Nat) : StreamRes :=
  let sc := scanTokens input
  let ts := sc.1
  let tooLong := sc.2
  match cancelAt with
  | some t =>
    if t < ts.length then
      { filtered := filterRun initFilterState (ts.take t),
        raw := ts.take t,
        errS := some .ctxCanceled }
    else
      { filtered := filterRun initFilterState ts, raw := ts,
        errS := if tooLong then some .readFail else none }
  | none =>
    { filtered := filterRun initFilterState ts, raw := ts,
      errS := if tooLong then some .readFail else none }

/-- Error finally reported by `CodexExecutor.Run`. -/
inductive FinalErr
  | streamRead   -- wrapped stream read error
  | ctxCancel    -- the context's cancellation error
  | exitWrapped  -- wrapped child exit error
deriving Repr, DecidableEq

/-- The error-precedence logic at the end of `CodexExecutor.Run`:
a non-nil stream error is returned as-is (a cancellation error from the
stream IS the context error); otherwise a wait error is reported as the
context error when the context is done, else wrapped as an exit error. -/
def finalError (streamE : Option StreamErrKind) (waitFailed ctxDone : Bool) :
    Option FinalErr :=
  match streamE with
  | some .readFail => some .streamRead
  | some .ctxCanceled => some .ctxCancel
  | none =>
    if waitFailed then
      if ctxDone then some .ctxCancel else some .exitWrapped
    else none

/-- The fields of `executor.Result` relevant here (`Signal` is computed
from `rawOut` by `detectSignal`, whose source is not in scope). -/
structure RunRes where
  output : List (List Char)
  rawOut : List (List Char)
  errR : Option FinalErr
deriving Repr, DecidableEq

/-- `CodexExecutor.Run` after the child started: stream and filter, wait,
then pick the final error.  `waitFailed` abstracts `wait()` returning a
non-nil error; the context is done at the wait check iff it was cancelled
at some point (`cancelAt.isSome`). -/
def codexRun (input : List Char) (cancelAt : Option Nat) (waitFailed : Bool) :
    RunRes :=
  let sr := processStream input cancelAt
  { output := sr.filtered, rawOut := sr.raw,
    errR := finalError sr.errS waitFailed cancelAt.isSome }

/-! ## Refinement: the URL guard in `containsFileLineRef` -/

/-- Modelled from the spec: the spec phrases the file-line rule as
"matching the reference pattern after removing URLs of the form
`https?://\S+`", with no quick-check guard.  `containsFileLineRef`
below is proved equal to this. -/
def fileLineRefSpec (s : List Char) : Bool := fileLineRefMatch (urlReplace s)

theorem containsSubstr_cons_of (c : Char) (rest p : List Char)
    (h : containsSubstr rest p = true) : containsSubstr (c :: rest) p = true := by
  rw [containsSubstr]
  simp [h]

theorem containsSubstr_of_startsWith (s p : List Char)
    (h : startsWithL s p = true) : containsSubstr s p = true := by
  cases s with
  | nil =>
    rw [containsSubstr]
    exact h
  | cons c rest =>
    rw [containsSubstr]
    simp [h]

theorem containsSubstr_of_startsWith_append :
    ∀ (a s b : List Char), startsWithL s (a ++ b) = true →
      containsSubstr s b = true := by
  intro a
  induction a with
  | nil =>
    intro s b h
    exact containsSubstr_of_startsWith s b h
  | cons x a2 ih =>
    intro s b h
    cases s with
    | nil => simp [startsWithL] at h
    | cons y s2 =>
      rw [List.cons_append] at h
      rw [startsWithL] at h
      simp at h
      exact containsSubstr_cons_of y s2 b (ih s2 b h.2)

theorem urlMatchLen_pos_contains_sep (s : List Char)
    (h : urlMatchLen s > 0) : containsSubstr s (str "://") = true := by
  unfold urlMatchLen at h
  by_cases h1 : startsWithL s (str "https://") = true
  · have : str "https://" = str "https" ++ str "://" := by decide
    exact containsSubstr_of_startsWith_append (str "https") s (str "://") (this ▸ h1)
  · by_cases h2 : startsWithL s (str "http://") = true
    · have : str "http://" = str "http" ++ str "://" := by decide
      exact containsSubstr_of_startsWith_append (str "http") s (str "://") (this ▸ h2)
    · simp [h1, h2] at h

theorem urlReplaceAux_id :
    ∀ (fuel : Nat) (s : List Char), containsSubstr s (str "://") = false →
      urlReplaceAux fuel s = s := by
  intro fuel
  induction fuel with
  | zero =>
    intro s _
    rfl
  | succ f ih =>
    intro s h
    cases s with
    | nil => rfl
    | cons c rest =>
      have hm : ¬(urlMatchLen (c :: rest) > 0) := by
        intro hp
        rw [urlMatchLen_pos_contains_sep (c :: rest) hp] at h
        exact Bool.noConfusion h
      have hrest : containsSubstr rest (str "://") = false := by
        cases hr : containsSubstr rest (str "://") with
        | false => rfl
        | true =>
          rw [containsSubstr_cons_of c rest _ hr] at h
          exact Bool.noConfusion h
      simp [urlReplaceAux, hm, ih rest hrest]

theorem urlReplace_id (s : List Char) (h : containsSubstr s (str "://") = false) :
    urlReplace s = s := urlReplaceAux_id s.length s h

theorem containsFileLineRef_eq_spec (s : List Char) :
    containsFileLineRef s = fileLineRefSpec s := by
  unfold containsFileLineRef fileLineRefSpec
  by_cases h : containsSubstr s (str "://") = true
  · simp [h]
  · have hf : containsSubstr s (str "://") = false := by
      cases hc : containsSubstr s (str "://") with
      | false => rfl
      | true => exact absurd hc h
    rw [hf]
    simp [urlReplace_id s hf]

/-! ## Claim C1: line readers of the two executor variants -/

/-- C1 (counterexample): the claim says no maximum line length is imposed
on any child-process stream line by either executor variant, but
`CodexExecutor.processStream` scans with `bufio.Scanner`, which fails
with `ErrTooLong` on a 65537-character line that `readLines` delivers
intact: the scan yields no token and the stream result is a read error
with empty outputs. -/
theorem codex_scanner_line_limit_cex :
    scanTokens (List.replicate 65537 'x' ++ ['\n']) = ([], true) ∧
    readLinesModel (List.replicate 65537 'x' ++ ['\n']) = [List.replicate 65537 'x'] ∧
    processStream (List.replicate 65537 'x' ++ ['\n']) none =
      { filtered := [], raw := [], errS := some .readFail } := by
  have hnin : '\n' ∉ List.replicate 65537 'x' := by
    intro hmem
    rw [List.mem_replicate] at hmem
    exact absurd hmem.2 (by decide)
  have hch := chunksOf_single_terminated (List.replicate 65537 'x') hnin
  have hcond : maxScanTokenSize ≤ (List.replicate 65537 'x' ++ ['\n']).length - 1 := by
    rw [List.length_append, List.length_replicate]
    norm_num [maxScanTokenSize]
  have hscan : scanTokens (List.replicate 65537 'x' ++ ['\n']) = ([], true) := by
    unfold scanTokens
    rw [hch, scanChunks]
    rw [if_pos (by rw [List.getLast?_concat]), if_pos hcond]
  refine ⟨hscan, ?_, ?_⟩
  · have hlast : (List.replicate 65537 'x').getLast? = some 'x' := by
      rw [show (65537 : Nat) = 65536 + 1 by norm_num, List.replicate_succ',
        List.getLast?_concat]
    unfold readLinesModel
    rw [hch, List.map_singleton, trimLineEnding_append_newline,
      dropCR_of_getLast_ne _ (by rw [hlast]; decide)]
  · unfold processStream
    rw [hscan]
    simp [filterRun]

/-- C1 (amended): `readLines` (via `trimLineEnding`) consumes a stream
line-by-line with no maximum line length, stripping exactly one trailing
`\r\n`, `\n`, or bare `\r` per line and preserving embedded `\r`; the
codex executor's `processStream`, however, scans with `bufio.Scanner`,
which applies the same trimming but fails on any newline-terminated line
of `maxScanTokenSize` (64 KiB) characters or more. -/
theorem lineReader_trim_unbounded_scanner_bounded (c : List Char) (h : '\n' ∉ c) :
    readLinesModel (c ++ ['\n']) = [dropCR c] ∧
    (c ≠ [] → readLinesModel c = [dropCR c]) ∧
    (c.getLast? ≠ some '\r' → dropCR c = c) ∧
    scanTokens (c ++ ['\n']) =
      (if c.length < maxScanTokenSize then ([dropCR c], false) else ([], true)) := by
  refine ⟨?_, ?_, dropCR_of_getLast_ne c, ?_⟩
  · unfold readLinesModel
    rw [chunksOf_single_terminated c h]
    simp [trimLineEnding_append_newline]
  · intro hne
    unfold readLinesModel
    rw [chunksOf_single_unterminated c h hne]
    simp [trimLineEnding_no_newline c h]
  · unfold scanTokens
    rw [chunksOf_single_terminated c h]
    by_cases hlen : c.length < maxScanTokenSize
    · have hcond : ¬(maxScanTokenSize ≤ (c ++ ['\n']).length - 1) := by
        simp [List.length_append]
        omega
      simp [scanChunks, List.getLast?_concat, hcond, hlen, List.dropLast_concat]
    · have hcond : maxScanTokenSize ≤ (c ++ ['\n']).length - 1 := by
        simp [List.length_append]
        omega
      simp [scanChunks, List.getLast?_concat, hcond, hlen]

/-- C1 (witness): the amended theorem applied to the concrete line
`a\rb` (embedded `\r` preserved, line far below the scanner bound). -/
theorem lineReader_trim_unbounded_scanner_bounded_witness :
    readLinesModel (str "a\rb" ++ ['\n']) = [dropCR (str "a\rb")] ∧
    scanTokens (str "a\rb" ++ ['\n']) =
      (if (str "a\rb").length < maxScanTokenSize
       then ([dropCR (str "a\rb")], false) else ([], true)) :=
  ⟨(lineReader_trim_unbounded_scanner_bounded (str "a\rb") (by decide)).1,
   (lineReader_trim_unbounded_scanner_bounded (str "a\rb") (by decide)).2.2.2⟩

/-! ## Claim C2: the header phase of the codex filter -/

/-- C2 (counterexample): the claim says any non-header content ends the
header phase (`in_header` becomes false), but after filtering the
non-header line `hello` (line 1) the filter still has `inHeader = true`
(the line is merely hidden). -/
theorem header_phase_survives_nonheader_cex :
    (shouldDisplay (str "hello") initFilterState).state.inHeader = true ∧
    (shouldDisplay (str "hello") initFilterState).shown = false ∧
    (shouldDisplay (str "hello") initFilterState).rule = FilterRule.headerHidden := by
  decide

/-- C2 (amended): while `in_header` is true and at most 20 non-empty
lines have been counted, a line not matching any special rule is shown
iff it starts with a known header marker (and is shown unmodified); a
non-header line is hidden but does NOT end the header phase.  The header
phase ends (for lines reaching the header logic) only once more than 20
non-empty lines have been counted. -/
theorem header_phase_amended (line : List Char) (st0 : CodexFilterState)
    (h1 : trimSpace line ≠ [])
    (h2 : containsSubstr (trimSpace line) (str "Full review comments:") = false)
    (h3 : st0.inReview = false)
    (h4 : (containsSubstr (toUpperL (trimSpace line)) (str "NO ISSUES FOUND") ||
           containsSubstr (toUpperL (trimSpace line)) (str "NO ISSUES")) = false)
    (h5 : startsWithL (trimSpace line) (str "**") = false)
    (h6 : startsWithL (trimSpace line) (str "- [P") = false)
    (h7 : containsFileLineRef (trimSpace line) = false)
    (h8 : st0.inHeader = true) :
    (st0.lineCount + 1 ≤ 20 →
      (shouldDisplay line st0).shown = isHeaderMarkerLine (trimSpace line) ∧
      (shouldDisplay line st0).state.inHeader = true ∧
      ((shouldDisplay line st0).shown = true → (shouldDisplay line st0).text = line)) ∧
    (20 < st0.lineCount + 1 →
      (shouldDisplay line st0).shown = false ∧
      (shouldDisplay line st0).state.inHeader = false) := by
  constructor
  · intro hle
    unfold shouldDisplay
    by_cases hm : isHeaderMarkerLine (trimSpace line) = true
    · simp [h1, h2, h3, h4, h5, h6, h7, h8, hle, hm]
    · rw [Bool.not_eq_true] at hm
      simp [h1, h2, h3, h4, h5, h6, h7, h8, hle, hm]
  · intro hgt
    unfold shouldDisplay
    have hnle : ¬(st0.lineCount + 1 ≤ 20) := by omega
    simp [h1, h2, h3, h4, h5, h6, h7, h8, hnle, hgt]

/-- C2 (witness): the amended theorem applied to the header line
`workdir: /tmp` in the initial state — shown unmodified, header phase
still active. -/
theorem header_phase_amended_witness :
    (shouldDisplay (str "workdir: /tmp") initFilterState).shown =
      isHeaderMarkerLine (trimSpace (str "workdir: /tmp")) ∧
    (shouldDisplay (str "workdir: /tmp") initFilterState).state.inHeader = true := by
  have h := header_phase_amended (str "workdir: /tmp") initFilterState
    (by decide) (by decide) (by decide) (by decide) (by decide) (by decide)
    (by decide) (by decide)
  exact ⟨(h.1 (by decide)).1, (h.1 (by decide)).2.1⟩

/-! ## Claim C9: lines containing NO ISSUES -/

/-- C9 (counterexample): the claim says any non-empty line containing
`NO ISSUES` is always shown unmodified, but once the review marker has
been seen the line `**NO ISSUES**` is shown with its bold markers
stripped, i.e. modified. -/
theorem no_issues_modified_in_review_cex :
    (shouldDisplay (str "**NO ISSUES**")
        (shouldDisplay (str "Full review comments:") initFilterState).state).shown = true ∧
    (shouldDisplay (str "**NO ISSUES**")
        (shouldDisplay (str "Full review comments:") initFilterState).state).text =
      str "NO ISSUES" ∧
    str "NO ISSUES" ≠ str "**NO ISSUES**" := by
  decide

/-- C9 (amended): any non-empty line containing `NO ISSUES`
case-insensitively is always shown, and — outside review mode — it is
shown unmodified and ends the header phase; in review mode it is shown
with bold markers stripped. -/
theorem no_issues_always_shown (line : List Char) (st0 : CodexFilterState)
    (h1 : trimSpace line ≠ [])
    (h2 : containsSubstr (toUpperL (trimSpace line)) (str "NO ISSUES") = true) :
    (shouldDisplay line st0).shown = true ∧
    (st0.inReview = false →
      (shouldDisplay line st0).text = line ∧
      (shouldDisplay line st0).state.inHeader = false) := by
  unfold shouldDisplay
  by_cases hm : containsSubstr (trimSpace line) (str "Full review comments:") = true
  · simp [h1, hm]
  · simp only [Bool.not_eq_true] at hm
    by_cases hr : st0.inReview = true
    · simp [h1, hm, hr]
    · simp only [Bool.not_eq_true] at hr
      simp [h1, hm, hr, h2]

/-- C9 (witness): the amended theorem applied to the line
`no issues found.` in the initial state. -/
theorem no_issues_always_shown_witness :
    (shouldDisplay (str "no issues found.") initFilterState).shown = true ∧
    (shouldDisplay (str "no issues found.") initFilterState).text =
      str "no issues found." := by
  have h := no_issues_always_shown (str "no issues found.") initFilterState
    (by decide) (by decide)
  exact ⟨h.1, (h.2 (by decide)).1⟩

/-! ## Claim C5: the file-line reference rule -/

/-- C5: for every non-empty line not handled by an earlier filter rule
(review marker, review mode, NO ISSUES, bold summary, priority finding),
the file-line branch fires exactly when the trimmed line — with every
URL of the form `https?` + separator + non-space run replaced by a
space — matches `fileLineRefPattern`; and `containsFileLineRef` (with
its quick `"://"` guard) equals the spec's guard-free composition
`fileLineRefSpec`. -/
theorem fileLineRef_rule (line : List Char) (st0 : CodexFilterState)
    (h1 : trimSpace line ≠ [])
    (h2 : containsSubstr (trimSpace line) (str "Full review comments:") = false)
    (h3 : st0.inReview = false)
    (h4 : (containsSubstr (toUpperL (trimSpace line)) (str "NO ISSUES FOUND") ||
           containsSubstr (toUpperL (trimSpace line)) (str "NO ISSUES")) = false)
    (h5 : startsWithL (trimSpace line) (str "**") = false)
    (h6 : startsWithL (trimSpace line) (str "- [P") = false) :
    ((shouldDisplay line st0).rule = FilterRule.fileRef ↔
      fileLineRefSpec (trimSpace line) = true) ∧
    (fileLineRefSpec (trimSpace line) = true →
      (shouldDisplay line st0).shown = true ∧
      (shouldDisplay line st0).text = stripBold line ∧
      (shouldDisplay line st0).state.inHeader = false) ∧
    containsFileLineRef (trimSpace line) = fileLineRefSpec (trimSpace line) := by
  have heq := containsFileLineRef_eq_spec (trimSpace line)
  by_cases hf : fileLineRefSpec (trimSpace line) = true
  · unfold shouldDisplay
    simp [h1, h2, h3, h4, h5, h6, heq, hf]
  · rw [Bool.not_eq_true] at hf
    unfold shouldDisplay
    simp [h1, h2, h3, h4, h5, h6, heq, hf]
    split
    · split
      · simp
      · simp
    · simp

/-- C5 (witness): the theorem applied to the concrete line
`see pkg/foo.go:12` in the initial state: the rule fires. -/
theorem fileLineRef_rule_witness :
    (shouldDisplay (str "see pkg/foo.go:12") initFilterState).rule =
      FilterRule.fileRef := by
  have h := fileLineRef_rule (str "see pkg/foo.go:12") initFilterState
    (by decide) (by decide) (by decide) (by decide) (by decide) (by decide)
  exact h.1.mpr (by decide)

/-! ## Git service (pkg/git, Service)

`Service` methods are translated from the source.  The `backend`
interface they call wraps the external git CLI (its implementation is
not part of the service source); each backend primitive below is
modelled from the spec and the backend interface contract as a total
operation on an explicit repository state. -/

/-- Abstract repository state seen through the git backend:
current branch, known branches, files with uncommitted changes
(staged, modified or untracked), the staging area, and the commit log
(message and committed paths, newest first). -/
structure GitState where
  currentBranch : String
  branches : List String
  changed : List String
  staged : List String
  commits : List (String × List String)
deriving Repr, DecidableEq

/-- Modelled from the spec: backend `hasChangesOtherThan` — some file
other than `p` has uncommitted changes. -/
def hasChangesOtherThanB (p : String) (st : GitState) : Bool :=
  st.changed.any fun q => q ≠ p

/-- Modelled from the spec: backend `fileHasChanges` — `p` has
uncommitted changes. -/
def fileHasChangesB (p : String) (st : GitState) : Bool :=
  decide (p ∈ st.changed)

/-- Modelled from the spec: backend `branchExists`. -/
def branchExistsB (n : String) (st : GitState) : Bool :=
  decide (n ∈ st.branches)

/-- Modelled from the spec: backend `createBranch` — create the branch
and switch to it. -/
def createBranchB (n : String) (st : GitState) : GitState :=
  { st with branches := n :: st.branches, currentBranch := n }

/-- Modelled from the spec: backend `checkoutBranch`. -/
def checkoutBranchB (n : String) (st : GitState) : GitState :=
  { st with currentBranch := n }

/-- Modelled from the spec: backend `add` — stage one path. -/
def addB (p : String) (st : GitState) : GitState :=
  { st with staged := p :: st.staged }

/-- Modelled from the spec: backend `commit` — commit the staging area:
staged paths stop being uncommitted changes and are recorded. -/
def commitB (msg : String) (st : GitState) : GitState :=
  { st with
    changed := st.changed.filter fun q => ¬(q ∈ st.staged),
    staged := [],
    commits := (msg, st.staged) :: st.commits }

/-- Modelled from the spec: backend `commitFiles` — commit only the named
paths (`git commit -- paths`), leaving every other file's state alone. -/
def commitFilesB (msg : String) (paths : List String) (st : GitState) : GitState :=
  { st with
    changed := st.changed.filter fun q => ¬(q ∈ paths),
    staged := st.staged.filter fun q => ¬(q ∈ paths),
    commits := (msg, paths) :: st.commits }

/-- Errors surfaced by `preparePlanBranch`. -/
inductive GitErr
  | notOnMain         -- worktree creation requires main/master
  | uncommittedOther  -- uncommitted changes other than the plan file
deriving Repr, DecidableEq

/-- Modelled from the spec: `plan.ExtractBranchName` (its source is not
in scope) — basename of the path, minus a leading `YYYYMMDD-` or
`YYYY-MM-DD-` date and a `.md` suffix. -/
def baseNameL (p : List Char) : List Char :=
  ((p.reverse.takeWhile fun c => c ≠ '/').reverse)

/-- Strip a leading compact (`YYYYMMDD-`) or dashed (`YYYY-MM-DD-`) date. -/
def stripDate (s : List Char) : List Char :=
  match s with
  | a :: b :: c :: d :: e :: f :: g :: h :: '-' :: rest =>
    if a.isDigit && b.isDigit && c.isDigit && d.isDigit &&
       e.isDigit && f.isDigit && g.isDigit && h.isDigit then rest
    else match s with
      | a :: b :: c :: d :: '-' :: f :: g :: '-' :: i :: j :: '-' :: rest2 =>
        if a.isDigit && b.isDigit && c.isDigit && d.isDigit &&
           f.isDigit && g.isDigit && i.isDigit && j.isDigit then rest2
        else s
      | _ => s
  | _ => s

/-- Strip a trailing `.md`. -/
def stripMdSfx (s : List Char) : List Char :=
  if startsWithL s.reverse (str ".md").reverse then s.take (s.length - 3) else s

/-- `plan.ExtractBranchName`, modelled from the spec. -/
def extractBranchName (path : String) : String :=
  String.mk (stripMdSfx (stripDate (baseNameL path.toList)))

/-- `Service.preparePlanBranch` from the source: branch guard, dirty
check for files other than the plan, and the plan file's own status. -/
def preparePlanBranch (st : GitState) (planFile : String) (requireMain : Bool) :
    Except GitErr (String × Bool) :=
  if st.currentBranch ≠ "main" ∧ st.currentBranch ≠ "master" then
    if requireMain then .error .notOnMain else .ok ("", false)
  else
    let branchName := extractBranchName planFile
    if hasChangesOtherThanB planFile st then .error .uncommittedOther
    else .ok (branchName, fileHasChangesB planFile st)

/-- `Service.CreateBranchForPlan` from the source: no-op off main/master,
create or switch to the derived branch, then auto-commit the plan file
when it was the only dirty file. -/
def createBranchForPlan (st : GitState) (planFile : String) :
    Except GitErr GitState :=
  match preparePlanBranch st planFile false with
  | .error e => .error e
  | .ok (branchName, planHasChanges) =>
    if branchName = "" then .ok st
    else
      let st2 := if branchExistsB branchName st then checkoutBranchB branchName st
                 else createBranchB branchName st
      if planHasChanges then
        .ok (commitB ("add plan: " ++ branchName) (addB planFile st2))
      else .ok st2

/-- `Service.CommitIgnoreChanges` from the source: no-op when
`.gitignore` is clean, else stage it and commit only that path. -/
def commitIgnoreChanges (st : GitState) : Except GitErr GitState :=
  if fileHasChangesB ".gitignore" st = false then .ok st
  else
    .ok (commitFilesB "add ralphex entries to .gitignore" [".gitignore"]
      (addB ".gitignore" st))

/-! ## Claim C4: CreateBranchForPlan -/

/-- C4: `CreateBranchForPlan` succeeds as a no-op off main/master;
on main/master it fails (creating nothing) when a file other than the
plan is dirty, and otherwise creates or switches to the branch named
`extractBranchName planFile`, auto-committing the plan file iff the plan
file itself had uncommitted changes (then the only dirty file).
`hstage` is the backend invariant that staged files count as uncommitted
changes; `hbn` rules out the degenerate empty branch name. -/
theorem createBranchForPlan_spec (st : GitState) (planFile : String)
    (hstage : ∀ f ∈ st.staged, f ∈ st.changed)
    (hbn : extractBranchName planFile ≠ "") :
    (st.currentBranch ≠ "main" ∧ st.currentBranch ≠ "master" →
      createBranchForPlan st planFile = .ok st) ∧
    ((st.currentBranch = "main" ∨ st.currentBranch = "master") →
      (hasChangesOtherThanB planFile st = true →
        createBranchForPlan st planFile = .error .uncommittedOther) ∧
      (hasChangesOtherThanB planFile st = false →
        ∃ st2, createBranchForPlan st planFile = .ok st2 ∧
          st2.currentBranch = extractBranchName planFile ∧
          extractBranchName planFile ∈ st2.branches ∧
          (fileHasChangesB planFile st = true →
            ∃ files,
              st2.commits =
                ("add plan: " ++ extractBranchName planFile, files) :: st.commits ∧
              planFile ∈ files ∧ (∀ f ∈ files, f = planFile) ∧
              fileHasChangesB planFile st2 = false) ∧
          (fileHasChangesB planFile st = false →
            st2.commits = st.commits ∧ st2.changed = st.changed))) := by
  constructor
  · intro hoff
    unfold createBranchForPlan preparePlanBranch
    simp [hoff]
  · intro hon
    have hmain : ¬(st.currentBranch ≠ "main" ∧ st.currentBranch ≠ "master") := by
      rcases hon with h | h <;> simp [h]
    constructor
    · intro hother
      unfold createBranchForPlan preparePlanBranch
      simp [hmain, hother]
    · intro hother
      have hall : ∀ q ∈ st.changed, q = planFile := by
        intro q hq
        have := List.any_eq_false.mp hother q hq
        simpa using this
      by_cases hplan : fileHasChangesB planFile st = true
      · refine ⟨commitB ("add plan: " ++ extractBranchName planFile)
          (addB planFile
            (if branchExistsB (extractBranchName planFile) st then
              checkoutBranchB (extractBranchName planFile) st
             else createBranchB (extractBranchName planFile) st)), ?_, ?_, ?_, ?_, ?_⟩
        · unfold createBranchForPlan preparePlanBranch
          simp [hmain, hother, hbn, hplan]
        · by_cases hex : branchExistsB (extractBranchName planFile) st = true
          · simp [hex, commitB, addB, checkoutBranchB]
          · simp [hex, commitB, addB, createBranchB]
        · by_cases hex : branchExistsB (extractBranchName planFile) st = true
          · have : extractBranchName planFile ∈ st.branches := by
              have := hex
              unfold branchExistsB at this
              simpa using this
            simp [hex, commitB, addB, checkoutBranchB, this]
          · simp [hex, commitB, addB, createBranchB]
        · intro _
          refine ⟨planFile ::
            (if branchExistsB (extractBranchName planFile) st then
              checkoutBranchB (extractBranchName planFile) st
             else createBranchB (extractBranchName planFile) st).staged, ?_, ?_, ?_, ?_⟩
          · by_cases hex : branchExistsB (extractBranchName planFile) st = true <;>
              simp [hex, commitB, addB, checkoutBranchB, createBranchB]
          · simp
          · intro f hf
            by_cases hex : branchExistsB (extractBranchName planFile) st = true <;>
              [skip; skip] <;>
              simp [hex, checkoutBranchB, createBranchB] at hf <;>
              rcases hf with hf | hf <;>
              first
                | exact hf
                | exact hall f (hstage f hf)
          · unfold fileHasChangesB
            by_cases hex : branchExistsB (extractBranchName planFile) st = true <;>
              simp [hex, commitB, addB, checkoutBranchB, createBranchB,
                List.mem_filter]
        · intro hclean
          rw [hplan] at hclean
          exact absurd hclean (by decide)
      · rw [Bool.not_eq_true] at hplan
        refine ⟨(if branchExistsB (extractBranchName planFile) st then
            checkoutBranchB (extractBranchName planFile) st
           else createBranchB (extractBranchName planFile) st), ?_, ?_, ?_, ?_, ?_⟩
        · unfold createBranchForPlan preparePlanBranch
          simp [hmain, hother, hbn, hplan]
        · by_cases hex : branchExistsB (extractBranchName planFile) st = true
          · simp [hex, checkoutBranchB]
          · simp [hex, createBranchB]
        · by_cases hex : branchExistsB (extractBranchName planFile) st = true
          · have : extractBranchName planFile ∈ st.branches := by
              have := hex
              unfold branchExistsB at this
              simpa using this
            simp [hex, checkoutBranchB, this]
          · simp [hex, createBranchB]
        · intro hdirty
          rw [hplan] at hdirty
          exact absurd hdirty (by decide)
        · intro _
          by_cases hex : branchExistsB (extractBranchName planFile) st = true <;>
            simp [hex, checkoutBranchB, createBranchB]

/-- C4 (witness): on `master` with an untracked plan file as the only
dirty file, the operation succeeds, lands on branch `add-auth` (date and
suffix stripped) and commits the plan file. -/
theorem createBranchForPlan_spec_witness :
    ∃ st2, createBranchForPlan
        { currentBranch := "master", branches := ["master"],
          changed := ["docs/plans/2024-01-15-add-auth.md"], staged := [],
          commits := [] }
        "docs/plans/2024-01-15-add-auth.md" = .ok st2 ∧
      st2.currentBranch = extractBranchName "docs/plans/2024-01-15-add-auth.md" ∧
      extractBranchName "docs/plans/2024-01-15-add-auth.md" ∈ st2.branches ∧
      (fileHasChangesB "docs/plans/2024-01-15-add-auth.md"
          { currentBranch := "master", branches := ["master"],
            changed := ["docs/plans/2024-01-15-add-auth.md"], staged := [],
            commits := [] } = true →
        ∃ files, st2.commits = ("add plan: " ++
            extractBranchName "docs/plans/2024-01-15-add-auth.md", files) :: [] ∧
          "docs/plans/2024-01-15-add-auth.md" ∈ files ∧
          (∀ f ∈ files, f = "docs/plans/2024-01-15-add-auth.md") ∧
          fileHasChangesB "docs/plans/2024-01-15-add-auth.md" st2 = false) ∧
      (fileHasChangesB "docs/plans/2024-01-15-add-auth.md"
          { currentBranch := "master", branches := ["master"],
            changed := ["docs/plans/2024-01-15-add-auth.md"], staged := [],
            commits := [] } = false →
        st2.commits = [] ∧ st2.changed = ["docs/plans/2024-01-15-add-auth.md"]) :=
  ((createBranchForPlan_spec
      { currentBranch := "master", branches := ["master"],
        changed := ["docs/plans/2024-01-15-add-auth.md"], staged := [],
        commits := [] }
      "docs/plans/2024-01-15-add-auth.md"
      (by simp) (by decide)).2 (Or.inr rfl)).2 (by decide)

/-! ## Claim C6: CommitIgnoreChanges -/

/-- C6: `CommitIgnoreChanges` is a no-op (no staging, no commit) when
`.gitignore` has no uncommitted changes; when it is dirty, it stages and
commits exactly `.gitignore`, and every other file keeps its
uncommitted-change and staged status. -/
theorem commitIgnoreChanges_spec (st : GitState) :
    (fileHasChangesB ".gitignore" st = false → commitIgnoreChanges st = .ok st) ∧
    (fileHasChangesB ".gitignore" st = true →
      ∃ st2, commitIgnoreChanges st = .ok st2 ∧
        fileHasChangesB ".gitignore" st2 = false ∧
        st2.commits =
          ("add ralphex entries to .gitignore", [".gitignore"]) :: st.commits ∧
        st2.currentBranch = st.currentBranch ∧
        st2.branches = st.branches ∧
        (∀ p : String, p ≠ ".gitignore" →
          ((p ∈ st2.changed ↔ p ∈ st.changed) ∧
           (p ∈ st2.staged ↔ p ∈ st.staged)))) := by
  constructor
  · intro h
    unfold commitIgnoreChanges
    rw [h]
    simp
  · intro h
    refine ⟨commitFilesB "add ralphex entries to .gitignore" [".gitignore"]
      (addB ".gitignore" st), ?_, ?_, ?_, rfl, rfl, ?_⟩
    · unfold commitIgnoreChanges
      rw [h]
      simp
    · unfold fileHasChangesB commitFilesB addB
      simp [List.mem_filter]
    · rfl
    · intro p hp
      unfold commitFilesB addB
      constructor
      · simp [List.mem_filter, hp]
      · simp [List.mem_filter, hp]

/-- C6 (witness): with `.gitignore` dirty alongside an unrelated dirty
and staged file `other.go`, only `.gitignore` is committed and
`other.go` keeps both statuses. -/
theorem commitIgnoreChanges_spec_witness :
    ∃ st2, commitIgnoreChanges
        { currentBranch := "master", branches := ["master"],
          changed := [".gitignore", "other.go"], staged := ["other.go"],
          commits := [] } = .ok st2 ∧
      fileHasChangesB ".gitignore" st2 = false ∧
      st2.commits = [("add ralphex entries to .gitignore", [".gitignore"])] ∧
      st2.currentBranch = "master" ∧
      st2.branches = ["master"] ∧
      (∀ p : String, p ≠ ".gitignore" →
        ((p ∈ st2.changed ↔ p ∈ [".gitignore", "other.go"]) ∧
         (p ∈ st2.staged ↔ p ∈ ["other.go"]))) :=
  (commitIgnoreChanges_spec
    { currentBranch := "master", branches := ["master"],
      changed := [".gitignore", "other.go"], staged := ["other.go"],
      commits := [] }).2 (by decide)

/-! ## Claim C3: interrupt watcher and worktree cleanup
(cmd/ralphex/main.go)

The watcher goroutine, the `worktreeCleanupFn` mutex cell and the
`sync.Once` wrapper are modelled as a trace of atomic actions.  The
mutex serialises `set`/`call`, and the `sync.Once` flag serialises `Do`,
so concurrent invocations are modelled as an arbitrary sequential order
of calls sharing the `done` flag. -/

/-- Atomic actions of the lifecycle driver and the interrupt watcher. -/
inductive MAct
  | stderrLine (s : List Char)  -- a line written to stderr
  | restoreTerminal             -- restoreTerminal()
  | restoreCwd                  -- os.Chdir(origDir)
  | removeWorktree              -- GitSvc.RemoveWorktree(wtPath)
  | abortExit                   -- os.Exit(1)
deriving Repr, DecidableEq

/-- The body the `runWithWorktree` cleanup wraps in `sync.Once`:
restore the working directory, then remove the worktree. -/
def worktreeCleanupBody : List MAct := [.restoreCwd, .removeWorktree]

/-- `sync.Once.Do`: run the body iff the flag is unset; the flag is set
afterwards either way. -/
def onceDo (body : List MAct) (done : Bool) : List MAct × Bool :=
  if done then ([], true) else (body, true)

/-- `worktreeCleanupFn.call`: read the slot under the mutex and invoke
the registered function (which is the `sync.Once`-wrapped cleanup), or
do nothing when no cleanup was registered. -/
def wtCall (cell : Option (List MAct)) (done : Bool) : List MAct × Bool :=
  match cell with
  | none => ([], done)
  | some body => onceDo body done

/-- `n` serialised invocations of the registered cleanup (deferred call,
watcher call, in any order) sharing the `sync.Once` flag. -/
def wtCallN (cell : Option (List MAct)) : Nat → Bool → List MAct × Bool
  | 0, done => ([], done)
  | n + 1, done =>
    let p := wtCall cell done
    let q := wtCallN cell n p.2
    (p.1 ++ q.1, q.2)

/-- `startInterruptWatcher`'s goroutine: once the context is cancelled it
prints the notice; if the 5-second timer then expires before the `done`
channel closes, it prints `force exit`, runs the cleanup closure
(terminal restore, then the registered worktree cleanup) and calls
`os.Exit(1)`. -/
def interruptWatcher (cancelled timerExpired : Bool)
    (cell : Option (List MAct)) (done : Bool) : List MAct × Bool :=
  if cancelled = false then ([], done)
  else
    let notice := MAct.stderrLine (str "interrupting... (force exit in 5s)")
    if timerExpired then
      let p := wtCall cell done
      ([notice, MAct.stderrLine (str "force exit"), MAct.restoreTerminal] ++
        p.1 ++ [MAct.abortExit], p.2)
    else ([notice], done)

/-- Number of times the cleanup body is executed in a trace, counted by
its `removeWorktree` action. -/
def cleanupRuns (acts : List MAct) : Nat := acts.count MAct.removeWorktree

theorem wtCallN_runs_le_one (body : List MAct) (hbody : cleanupRuns body ≤ 1) :
    ∀ (n : Nat) (done : Bool), (done = true → cleanupRuns (wtCallN (some body) n done).1 = 0) ∧
      cleanupRuns (wtCallN (some body) n done).1 ≤ 1 := by
  intro n
  induction n with
  | zero =>
    intro done
    constructor
    · intro _
      rfl
    · simp [wtCallN, cleanupRuns]
  | succ m ih =>
    intro done
    cases done with
    | true =>
      have h2 := (ih true).1 rfl
      constructor
      · intro _
        simp [wtCallN, wtCall, onceDo, cleanupRuns] at h2 ⊢
        exact h2
      · simp [wtCallN, wtCall, onceDo, cleanupRuns] at h2 ⊢
        simp [h2]
    | false =>
      have h2 := (ih true).1 rfl
      constructor
      · intro hcontra
        exact absurd hcontra (by decide)
      · simp [wtCallN, wtCall, onceDo, cleanupRuns] at h2 ⊢
        simp [cleanupRuns] at hbody
        simp [h2]
        omega

/-- C3: on cancellation the watcher prints the notice
`interrupting... (force exit in 5s)`; when the 5-second timer expires
before the process exits it runs the registered worktree cleanup and
only afterwards calls the abort-exit primitive (every cleanup action
precedes `abortExit`, which is the final action); the `sync.Once` flag
makes the cleanup body run at most once across the watcher's call and
any number of further serialised invocations of the registered
cleanup. -/
theorem interruptWatcher_spec (done0 : Bool) :
    (∀ timerExpired cell,
      (interruptWatcher true timerExpired cell done0).1.head? =
        some (.stderrLine (str "interrupting... (force exit in 5s)"))) ∧
    (done0 = false →
      (interruptWatcher true true (some worktreeCleanupBody) done0).1 =
        [.stderrLine (str "interrupting... (force exit in 5s)"),
         .stderrLine (str "force exit"), .restoreTerminal,
         .restoreCwd, .removeWorktree, .abortExit] ∧
      (interruptWatcher true true (some worktreeCleanupBody) done0).2 = true) ∧
    ((interruptWatcher true true (some worktreeCleanupBody) done0).1.getLast? =
      some .abortExit) ∧
    (∀ n, cleanupRuns
        (wtCallN (some worktreeCleanupBody) n
          (interruptWatcher true true (some worktreeCleanupBody) done0).2).1 = 0) ∧
    (∀ n, cleanupRuns
        ((interruptWatcher true true (some worktreeCleanupBody) done0).1 ++
          (wtCallN (some worktreeCleanupBody) n
            (interruptWatcher true true (some worktreeCleanupBody) done0).2).1) ≤ 1) := by
  have hflag : (interruptWatcher true true (some worktreeCleanupBody) done0).2 = true := by
    cases done0 <;> simp [interruptWatcher, wtCall, onceDo]
  refine ⟨?_, ?_, ?_, ?_, ?_⟩
  · intro timerExpired cell
    cases timerExpired <;> simp [interruptWatcher]
  · intro h0
    subst h0
    simp [interruptWatcher, wtCall, onceDo, worktreeCleanupBody]
  · cases done0 <;>
      simp [interruptWatcher, wtCall, onceDo, worktreeCleanupBody]
  · intro n
    rw [hflag]
    exact (wtCallN_runs_le_one worktreeCleanupBody (by decide) n true).1 rfl
  · intro n
    rw [hflag]
    have h1 : cleanupRuns (wtCallN (some worktreeCleanupBody) n true).1 = 0 :=
      (wtCallN_runs_le_one worktreeCleanupBody (by decide) n true).1 rfl
    have h2 : cleanupRuns (interruptWatcher true true (some worktreeCleanupBody) done0).1 ≤ 1 := by
      cases done0 <;> simp [interruptWatcher, wtCall, onceDo, worktreeCleanupBody, cleanupRuns]
    simp [cleanupRuns] at h1 h2 ⊢
    omega

/-- C3 (witness): the theorem applied with an unset `sync.Once` flag:
the forced trace runs the cleanup exactly once before `abortExit`, and a
later deferred call is a no-op. -/
theorem interruptWatcher_spec_witness :
    (interruptWatcher true true (some worktreeCleanupBody) false).1 =
      [.stderrLine (str "interrupting... (force exit in 5s)"),
       .stderrLine (str "force exit"), .restoreTerminal,
       .restoreCwd, .removeWorktree, .abortExit] ∧
    cleanupRuns
      ((interruptWatcher true true (some worktreeCleanupBody) false).1 ++
        (wtCallN (some worktreeCleanupBody) 1
          (interruptWatcher true true (some worktreeCleanupBody) false).2).1) ≤ 1 :=
  ⟨((interruptWatcher_spec false).2.1 rfl).1,
   (interruptWatcher_spec false).2.2.2.2 1⟩

/-! ## Claim C7: dashboard plan loading with completed/ fallback
(web, loadPlanWithFallback)

`plan.ParsePlanFile` (not in scope here) is modelled from the spec as a
lookup in the current on-disk state `fs`; parsed plans are abstracted to
values of type `Nat`.  The function takes `fs` on every call — each
request reads the disk as it is then, with no cache. -/

/-- Failure causes of a plan read, distinguishing `fs.ErrNotExist`. -/
inductive FsErr
  | notExist  -- errors.Is(err, fs.ErrNotExist)
  | otherErr  -- any other parse/read error
deriving Repr, DecidableEq

/-- `loadPlanWithFallback` from the source: parse at `dir/base`; only on
a does-not-exist error retry at `dir/completed/base`; any remaining
error is returned (the Go wrapper message is dropped in this model). -/
def loadPlanWithFallback (fs : String → Except FsErr Nat) (dir base : String) :
    Except FsErr Nat :=
  match fs (dir ++ "/" ++ base) with
  | .ok p => .ok p
  | .error e =>
    if e = .notExist then
      match fs (dir ++ "/completed/" ++ base) with
      | .ok p2 => .ok p2
      | .error e2 => .error e2
    else .error e

/-- C7: plan loading is a function of the current disk state only (it
re-reads `fs` on every call); a does-not-exist failure at the plan path
falls back to the `completed/` sibling with the original basename; and
the call errors exactly when the original read failed for a reason other
than non-existence or the fallback read also failed. -/
theorem loadPlanWithFallback_spec (fs : String → Except FsErr Nat)
    (dir base : String) :
    (∀ p, fs (dir ++ "/" ++ base) = .ok p →
      loadPlanWithFallback fs dir base = .ok p) ∧
    (fs (dir ++ "/" ++ base) = .error .notExist →
      loadPlanWithFallback fs dir base = fs (dir ++ "/completed/" ++ base)) ∧
    (fs (dir ++ "/" ++ base) = .error .otherErr →
      loadPlanWithFallback fs dir base = .error .otherErr) ∧
    ((∃ e, loadPlanWithFallback fs dir base = .error e) ↔
      (fs (dir ++ "/" ++ base) = .error .otherErr ∨
        (fs (dir ++ "/" ++ base) = .error .notExist ∧
          ∃ e2, fs (dir ++ "/completed/" ++ base) = .error e2))) := by
  refine ⟨?_, ?_, ?_, ?_⟩
  · intro p h
    unfold loadPlanWithFallback
    rw [h]
  · intro h
    unfold loadPlanWithFallback
    rw [h]
    simp only [if_pos rfl]
    cases hf : fs (dir ++ "/completed/" ++ base) <;> rfl
  · intro h
    unfold loadPlanWithFallback
    rw [h]
    simp
  · unfold loadPlanWithFallback
    cases h : fs (dir ++ "/" ++ base) with
    | ok p => simp [h]
    | error e =>
      cases e with
      | notExist =>
        cases hf : fs (dir ++ "/completed/" ++ base) with
        | ok p2 => simp [hf]
        | error e2 => simp [hf]
      | otherErr => simp

/-- C7 (witness): the theorem applied to a disk state where only the
`completed/` copy exists: the fallback result is returned. -/
theorem loadPlanWithFallback_spec_witness :
    loadPlanWithFallback
      (fun p => if p = "plans/completed/f.md" then .ok 7 else .error .notExist)
      "plans" "f.md" =
    (fun p => if p = "plans/completed/f.md" then (.ok 7 : Except FsErr Nat)
              else .error .notExist) "plans/completed/f.md" :=
  (loadPlanWithFallback_spec
    (fun p => if p = "plans/completed/f.md" then .ok 7 else .error .notExist)
    "plans" "f.md").2.1 (by rw [if_neg (by decide)])

/-! ## Claim C8: CodexExecutor.Run error precedence and partial output -/

/-- C8: when stream processing stops early on cancellation, `Run` still
returns the filtered and raw output accumulated over the lines handled
so far, with the context's cancellation error; a stream read error takes
precedence over the child's exit error; and a wait error with the
context cancelled is reported as the context's cancellation error rather
than the exit error. -/
theorem codexRun_spec (input : List Char) (waitFailed : Bool) :
    (∀ t, t < (scanTokens input).1.length →
      codexRun input (some t) waitFailed =
        { output := filterRun initFilterState ((scanTokens input).1.take t),
          rawOut := (scanTokens input).1.take t,
          errR := some .ctxCancel }) ∧
    (∀ cancelAt, (processStream input cancelAt).errS = some .readFail →
      (codexRun input cancelAt waitFailed).errR = some .streamRead ∧
      (codexRun input cancelAt waitFailed).output =
        (processStream input cancelAt).filtered ∧
      (codexRun input cancelAt waitFailed).rawOut =
        (processStream input cancelAt).raw) ∧
    (∀ cancelAt, (processStream input cancelAt).errS = none → waitFailed = true →
      (codexRun input cancelAt waitFailed).errR =
        (if cancelAt.isSome then some .ctxCancel else some .exitWrapped)) := by
  refine ⟨?_, ?_, ?_⟩
  · intro t ht
    unfold codexRun processStream
    simp [ht, finalError]
  · intro cancelAt h
    simp only [codexRun]
    rw [h]
    simp [finalError]
  · intro cancelAt h hw
    simp only [codexRun]
    rw [h, hw]
    cases cancelAt <;> simp [finalError]

/-- C8 (witness): the theorem applied to the stream `a`, `b` cancelled
before the second line: only the first line's accumulation is returned,
with the cancellation error. -/
theorem codexRun_spec_witness :
    codexRun (str "a\nb\n") (some 1) true =
      { output := filterRun initFilterState ((scanTokens (str "a\nb\n")).1.take 1),
        rawOut := (scanTokens (str "a\nb\n")).1.take 1,
        errR := some .ctxCancel } :=
  (codexRun_spec (str "a\nb\n") true).1 1 (by decide)

/-! ## Claim C10: MovePlanToCompleted idempotence
(pkg/git, Service.MovePlanToCompleted)

The filesystem and the git backend primitives the method calls
(`os.MkdirAll`, `os.Stat`, `moveFile` = `git mv`, `os.Rename`, `add`,
`commit`) are modelled from the spec as total operations on an explicit
state; the plan path is given as its directory and basename, matching
`filepath.Dir`/`filepath.Base`. -/

/-- Filesystem-plus-git state for the plan move: existing file paths,
git-tracked paths, existing directories, and commit messages (newest
first). -/
structure MoveState where
  files : List String
  tracked : List String
  dirs : List String
  commits : List String
deriving Repr, DecidableEq

/-- Modelled from the spec: `os.MkdirAll` — create the directory if
missing; a no-op when it exists. -/
def mkdirAllB (d : String) (st : MoveState) : MoveState :=
  if d ∈ st.dirs then st else { st with dirs := d :: st.dirs }

/-- Modelled from the spec: backend `moveFile` (`git mv`) — fails for an
untracked source, else renames the file and its tracking entry. -/
def moveFileB (src dst : String) (st : MoveState) : Option MoveState :=
  if src ∈ st.tracked then
    some { st with
      files := dst :: st.files.filter (fun q => q ≠ src),
      tracked := dst :: st.tracked.filter (fun q => q ≠ src) }
  else none

/-- Modelled from the spec: `os.Rename` — fails when the source does not
exist. -/
def renameFsB (src dst : String) (st : MoveState) : Option MoveState :=
  if src ∈ st.files then
    some { st with files := dst :: st.files.filter (fun q => q ≠ src) }
  else none

/-- Modelled from the spec: backend `add` — track the new path. -/
def addTrackB (p : String) (st : MoveState) : MoveState :=
  { st with tracked := p :: st.tracked }

/-- Modelled from the spec: backend `commit` — record the commit. -/
def commitMvB (msg : String) (st : MoveState) : MoveState :=
  { st with commits := msg :: st.commits }

/-- `Service.MovePlanToCompleted` from the source: ensure `completed/`
exists; if the source is gone but the destination exists, log and return
nil; otherwise `git mv`, falling back to a filesystem rename plus `add`,
then commit the move. -/
def movePlanToCompleted (st : MoveState) (dir base : String) :
    Except String MoveState :=
  let completedDir := dir ++ "/completed"
  let destPath := completedDir ++ "/" ++ base
  let planPath := dir ++ "/" ++ base
  let st1 := mkdirAllB completedDir st
  if planPath ∉ st1.files ∧ destPath ∈ st1.files then .ok st1
  else
    match moveFileB planPath destPath st1 with
    | some st2 => .ok (commitMvB ("move completed plan: " ++ base) st2)
    | none =>
      match renameFsB planPath destPath st1 with
      | none => .error "move plan"
      | some st2 =>
        .ok (commitMvB ("move completed plan: " ++ base) (addTrackB destPath st2))

/-- C10: when the plan file no longer exists at the source but its
basename is already in `completed/`, the call returns nil leaving the
state untouched — no move and no commit; consequently a second call
after any successful move (which leaves exactly that configuration)
returns nil and changes nothing. -/
theorem movePlanToCompleted_idempotent (st : MoveState) (dir base : String) :
    ((dir ++ "/" ++ base) ∉ st.files →
     (dir ++ "/completed" ++ "/" ++ base) ∈ st.files →
     (dir ++ "/completed") ∈ st.dirs →
      movePlanToCompleted st dir base = .ok st) ∧
    (∀ st2, (dir ++ "/" ++ base) ∈ st.files →
      movePlanToCompleted st dir base = .ok st2 →
      movePlanToCompleted st2 dir base = .ok st2) := by
  have hne : (dir ++ "/" ++ base) ≠ (dir ++ "/completed" ++ "/" ++ base) := by
    intro heq
    have hlen := congrArg String.length heq
    simp [String.length_append] at hlen
    exact absurd hlen (by decide)
  have key : ∀ s : MoveState, (dir ++ "/" ++ base) ∉ s.files →
      (dir ++ "/completed" ++ "/" ++ base) ∈ s.files →
      (dir ++ "/completed") ∈ s.dirs →
      movePlanToCompleted s dir base = .ok s := by
    intro s h1 h2 h3
    simp only [movePlanToCompleted, mkdirAllB]
    rw [if_pos h3, if_pos ⟨h1, h2⟩]
  constructor
  · exact key st
  · intro st2 hin hfirst
    have hmkfiles : (mkdirAllB (dir ++ "/completed") st).files = st.files := by
      unfold mkdirAllB
      split <;> rfl
    have hmkdirs : (dir ++ "/completed") ∈ (mkdirAllB (dir ++ "/completed") st).dirs := by
      unfold mkdirAllB
      split
      · assumption
      · exact List.mem_cons_self _ _
    have hnotearly :
        ¬((dir ++ "/" ++ base) ∉ (mkdirAllB (dir ++ "/completed") st).files ∧
          (dir ++ "/completed" ++ "/" ++ base) ∈
            (mkdirAllB (dir ++ "/completed") st).files) := by
      rw [hmkfiles]
      intro hcon
      exact hcon.1 hin
    simp only [movePlanToCompleted] at hfirst
    rw [if_neg hnotearly] at hfirst
    by_cases htr : (dir ++ "/" ++ base) ∈ (mkdirAllB (dir ++ "/completed") st).tracked
    · rw [show moveFileB (dir ++ "/" ++ base) (dir ++ "/completed" ++ "/" ++ base)
          (mkdirAllB (dir ++ "/completed") st) =
          some { (mkdirAllB (dir ++ "/completed") st) with
            files := (dir ++ "/completed" ++ "/" ++ base) ::
              (mkdirAllB (dir ++ "/completed") st).files.filter
                (fun q => q ≠ (dir ++ "/" ++ base)),
            tracked := (dir ++ "/completed" ++ "/" ++ base) ::
              (mkdirAllB (dir ++ "/completed") st).tracked.filter
                (fun q => q ≠ (dir ++ "/" ++ base)) } from by
        unfold moveFileB
        rw [if_pos htr]] at hfirst
      have hst2 := (Except.ok.injEq _ _).mp hfirst
      apply key
      · rw [← hst2]
        simp [commitMvB, List.mem_filter, hne]
      · rw [← hst2]
        simp [commitMvB]
      · rw [← hst2]
        simpa [commitMvB] using hmkdirs
    · rw [show moveFileB (dir ++ "/" ++ base) (dir ++ "/completed" ++ "/" ++ base)
          (mkdirAllB (dir ++ "/completed") st) = none from by
        unfold moveFileB
        rw [if_neg htr]] at hfirst
      rw [show renameFsB (dir ++ "/" ++ base) (dir ++ "/completed" ++ "/" ++ base)
          (mkdirAllB (dir ++ "/completed") st) =
          some { (mkdirAllB (dir ++ "/completed") st) with
            files := (dir ++ "/completed" ++ "/" ++ base) ::
              (mkdirAllB (dir ++ "/completed") st).files.filter
                (fun q => q ≠ (dir ++ "/" ++ base)) } from by
        unfold renameFsB
        rw [if_pos (hmkfiles ▸ hin)]] at hfirst
      have hst2 := (Except.ok.injEq _ _).mp hfirst
      apply key
      · rw [← hst2]
        simp [commitMvB, addTrackB, List.mem_filter, hne]
      · rw [← hst2]
        simp [commitMvB, addTrackB]
      · rw [← hst2]
        simpa [commitMvB, addTrackB] using hmkdirs

/-- C10 (witness): the theorem applied to a state after a completed
move: source gone, destination present — the call is a no-op returning
nil. -/
theorem movePlanToCompleted_idempotent_witness :
    movePlanToCompleted
      { files := ["plans/completed/f.md"], tracked := ["plans/completed/f.md"],
        dirs := ["plans/completed"], commits := ["move completed plan: f.md"] }
      "plans" "f.md" =
    .ok { files := ["plans/completed/f.md"], tracked := ["plans/completed/f.md"],
          dirs := ["plans/completed"], commits := ["move completed plan: f.md"] } :=
  (movePlanToCompleted_idempotent
    { files := ["plans/completed/f.md"], tracked := ["plans/completed/f.md"],
      dirs := ["plans/completed"], commits := ["move completed plan: f.md"] }
    "plans" "f.md").1 (by decide) (by decide) (by decide)
